import Mathlib

/-!
# Verification of the transcoder's coordination layer

Shallow embedding of the crash-tolerant job-coordination layer of the
`transcoder` repository: the file-backed named lock registry
(`internal/lockutil/lockutil.go`), the append-only completion journal
(`internal/encodelog/encodelog.go`), and the per-item orchestration flow of
`cmd/transcoder/main.go`.

Machine state that the Go code keeps on disk (the lock registry file, the
journal file) is modelled as explicit values (`List LockEntry`, `List Char`)
threaded through the operations; process liveness is a parameter
`live : Nat → Bool`; fallible parsing returns `Option`/`Except`, and theorems
are stated for the executions in which the underlying file I/O succeeds
(the Go code propagates I/O errors to its caller unchanged).

The file has two parts: first every definition (the embedding), then the
theorems about them.
-/

namespace Lockutil

/-- One entry of the lock registry file: `namedLockSetEntry` from
`internal/lockutil/lockutil.go` (`{Name string; PID int}`). -/
structure LockEntry where
  name : String
  pid : Nat
deriving DecidableEq, Repr

/-- The scanning loop of `NamedLockSet.TryAcquire` (lockutil.go:98-108):
walk the entries in order; an entry whose PID is not running is dropped
(`continue`); a running entry whose name matches the requested name aborts
the whole call with `ErrLockAlreadyHeld` naming that PID; all other running
entries are kept.  `live pid` models `checkPIDRunning pid`. -/
def scanEntries (live : Nat → Bool) (name : String) :
    List LockEntry → Except Nat (List LockEntry)
  | [] => .ok []
  | e :: rest =>
    if live e.pid then
      if e.name = name then .error e.pid
      else (scanEntries live name rest).map (fun keep => e :: keep)
    else scanEntries live name rest

/-- `NamedLockSet.TryAcquire` (lockutil.go:80-113), for executions in which
opening, locking, reading and writing the registry file succeed.  On
`.error p` the Go function returns `ErrLockAlreadyHeld: by PID p` before any
write; on `.ok` it writes `keepLocks ++ [{name, selfPid}]`. -/
def tryAcquire (live : Nat → Bool) (selfPid : Nat) (name : String)
    (locks : List LockEntry) : Except Nat (List LockEntry) :=
  match scanEntries live name locks with
  | .error p => .error p
  | .ok keep => .ok (keep ++ [⟨name, selfPid⟩])

/-- The persisted registry contents after a `TryAcquire` call: the file is
rewritten (`writeLockEntries`, lockutil.go:112) only on the success path;
the failure return at lockutil.go:105 happens before any write, so the file
keeps its previous contents. -/
def tryAcquireState (live : Nat → Bool) (selfPid : Nat) (name : String)
    (locks : List LockEntry) : List LockEntry :=
  match tryAcquire live selfPid name locks with
  | .error _ => locks
  | .ok newLocks => newLocks

/-- The filtering loop of `NamedLockSet.Release` (lockutil.go:133-139): keep
exactly the entries with `entry.Name != name || entry.PID != os.Getpid()`,
in order, and persist the result.  The Go function has no failure outcome
besides propagated I/O errors, which are outside this model. -/
def release (selfPid : Nat) (name : String) : List LockEntry → List LockEntry
  | [] => []
  | e :: rest =>
    if e.name ≠ name ∨ e.pid ≠ selfPid then e :: release selfPid name rest
    else release selfPid name rest

/-- Number of entries for name `n` whose owner is live, in a registry
snapshot. -/
def ownedLiveCount (live : Nat → Bool) (locks : List LockEntry) (n : String) :
    Nat :=
  locks.countP (fun e => live e.pid && (e.name == n))

/-- The registry invariant of the spec (§3): within a live snapshot, at most
one entry exists per name whose owner is a live process. -/
def invariantAtMostOne (live : Nat → Bool) (locks : List LockEntry) : Prop :=
  ∀ n, ownedLiveCount live locks n ≤ 1

end Lockutil

namespace Encodelog

/-- `LogFileEntry` from `internal/encodelog/encodelog.go`: all fields carry
the `omitempty` JSON option, with keys `input`, `output`, `start_time`,
`duration`, `args`, `error`, `skipped`, in this declaration order. -/
structure LogFileEntry where
  InputPath : String
  OutputPath : String
  StartTime : String
  Duration : String
  Args : List String
  Error : String
  Skipped : String
deriving DecidableEq, Repr

/-- The JSON values `encoding/json` produces for this record type: strings
and arrays of strings. -/
inductive JVal where
  | str (s : List Char)
  | arr (elems : List (List Char))
deriving DecidableEq, Repr

/-- Lowercase hexadecimal digits, as used by `encoding/json`'s string
escaper. -/
def hexDigit : Nat → Char
  | 0 => '0'
  | 1 => '1'
  | 2 => '2'
  | 3 => '3'
  | 4 => '4'
  | 5 => '5'
  | 6 => '6'
  | 7 => '7'
  | 8 => '8'
  | 9 => '9'
  | 10 => 'a'
  | 11 => 'b'
  | 12 => 'c'
  | 13 => 'd'
  | 14 => 'e'
  | 15 => 'f'
  | _ => '0'

/-- How `encoding/json` (with its default HTML escaping) renders one
character inside a JSON string: quote and backslash get a backslash,
newline, carriage return and tab get their short escapes, the other
control characters and the HTML-sensitive characters get four-hex-digit
escapes, as do U+2028 and U+2029, and everything else is emitted
verbatim. -/
def escChar (c : Char) : List Char :=
  if c = '"' then ['\\', '"']
  else if c = '\\' then ['\\', '\\']
  else if c = '\n' then ['\\', 'n']
  else if c = '\r' then ['\\', 'r']
  else if c = '\t' then ['\\', 't']
  else if c.toNat < 32 then
    ['\\', 'u', '0', '0', hexDigit (c.toNat / 16), hexDigit (c.toNat % 16)]
  else if c = '<' then ['\\', 'u', '0', '0', '3', 'c']
  else if c = '>' then ['\\', 'u', '0', '0', '3', 'e']
  else if c = '&' then ['\\', 'u', '0', '0', '2', '6']
  else if c.toNat = 0x2028 then ['\\', 'u', '2', '0', '2', '8']
  else if c.toNat = 0x2029 then ['\\', 'u', '2', '0', '2', '9']
  else [c]

/-- Escape a whole string body. -/
def escape : List Char → List Char
  | [] => []
  | c :: cs => escChar c ++ escape cs

/-- A JSON string literal: quote, escaped body, quote. -/
def printJStr (s : List Char) : List Char := '"' :: (escape s ++ ['"'])

/-- Elements of a JSON array, comma separated, with the closing bracket. -/
def printElems : List (List Char) → List Char
  | [] => [']']
  | [s] => printJStr s ++ [']']
  | s :: ss => printJStr s ++ ',' :: printElems ss

/-- A JSON value as produced by the encoder. -/
def printJVal : JVal → List Char
  | .str s => printJStr s
  | .arr ss => '[' :: printElems ss

/-- One `"key":value` member of a JSON object. -/
def printPair (kv : List Char × JVal) : List Char :=
  printJStr kv.1 ++ ':' :: printJVal kv.2

/-- Members of a JSON object, comma separated, with the closing brace. -/
def printPairs : List (List Char × JVal) → List Char
  | [] => ['\x7d']
  | [kv] => printPair kv ++ ['\x7d']
  | kv :: kvs => printPair kv ++ ',' :: printPairs kvs

/-- A compact JSON object, as `json.Encoder.Encode` writes it. -/
def printObj (ps : List (List Char × JVal)) : List Char :=
  '\x7b' :: printPairs ps

/-- A string field with `omitempty`: omitted when the value is empty. -/
def optStr (k : String) (v : String) : List (List Char × JVal) :=
  if v = "" then [] else [(k.data, .str v.data)]

/-- A string-slice field with `omitempty`: omitted when the slice is
empty. -/
def optArr (k : String) (vs : List String) : List (List Char × JVal) :=
  if vs = [] then [] else [(k.data, .arr (vs.map String.data))]

/-- The members `json.Marshal` emits for a `LogFileEntry`, in struct field
order, each omitted when empty. -/
def fieldsOf (e : LogFileEntry) : List (List Char × JVal) :=
  optStr "input" e.InputPath ++ (optStr "output" e.OutputPath ++
    (optStr "start_time" e.StartTime ++ (optStr "duration" e.Duration ++
      (optArr "args" e.Args ++ (optStr "error" e.Error ++
        optStr "skipped" e.Skipped)))))

/-- The JSON record `AppendLog` writes for an entry (without the trailing
newline added by `Encoder.Encode`). -/
def encodeEntry (e : LogFileEntry) : List Char := printObj (fieldsOf e)

/-- Inverse of the short escapes accepted by a JSON string decoder. -/
def unescCh (c : Char) : Option Char :=
  if c = '"' then some '"'
  else if c = '\\' then some '\\'
  else if c = '/' then some '/'
  else if c = 'b' then some (Char.ofNat 8)
  else if c = 'f' then some (Char.ofNat 12)
  else if c = 'n' then some '\n'
  else if c = 'r' then some '\r'
  else if c = 't' then some '\t'
  else none

/-- Value of one hexadecimal digit. -/
def hexVal (c : Char) : Option Nat :=
  if '0' ≤ c ∧ c ≤ '9' then some (c.toNat - 48)
  else if 'a' ≤ c ∧ c ≤ 'f' then some (c.toNat - 87)
  else if 'A' ≤ c ∧ c ≤ 'F' then some (c.toNat - 55)
  else none

/-- Decode a JSON string body up to and including its closing quote,
returning the decoded characters and the unconsumed input. -/
def parseStrBody : List Char → Option (List Char × List Char)
  | [] => none
  | c :: rest =>
    if c = '"' then some ([], rest)
    else if c = '\\' then
      match rest with
      | [] => none
      | c2 :: rest2 =>
        if c2 = 'u' then
          match rest2 with
          | d1 :: d2 :: d3 :: d4 :: rest3 =>
            match hexVal d1, hexVal d2, hexVal d3, hexVal d4 with
            | some h1, some h2, some h3, some h4 =>
              match parseStrBody rest3 with
              | none => none
              | some sr =>
                some (Char.ofNat (((h1 * 16 + h2) * 16 + h3) * 16 + h4) ::
                  sr.1, sr.2)
            | _, _, _, _ => none
          | _ => none
        else
          match unescCh c2 with
          | none => none
          | some c3 =>
            match parseStrBody rest2 with
            | none => none
            | some sr => some (c3 :: sr.1, sr.2)
    else
      match parseStrBody rest with
      | none => none
      | some sr => some (c :: sr.1, sr.2)

/-- Decode the elements of a nonempty JSON array of strings, after the
opening bracket; fuel bounds the number of elements. -/
def parseElems : Nat → List Char → Option (List (List Char) × List Char)
  | 0, _ => none
  | fuel + 1, cs =>
    match cs with
    | [] => none
    | c :: rest =>
      if c = '"' then
        match parseStrBody rest with
        | none => none
        | some sr =>
          match sr.2 with
          | [] => none
          | c2 :: r2 =>
            if c2 = ']' then some ([sr.1], r2)
            else if c2 = ',' then
              match parseElems fuel r2 with
              | none => none
              | some er => some (sr.1 :: er.1, er.2)
            else none
      else none

/-- Decode one JSON value of the shapes the encoder produces. -/
def parseJVal (fuel : Nat) (cs : List Char) : Option (JVal × List Char) :=
  match cs with
  | [] => none
  | c :: rest =>
    if c = '"' then (parseStrBody rest).map (fun sr => (.str sr.1, sr.2))
    else if c = '[' then
      match rest with
      | [] => none
      | c2 :: rest2 =>
        if c2 = ']' then some (.arr [], rest2)
        else
          match parseElems fuel (c2 :: rest2) with
          | none => none
          | some er => some (.arr er.1, er.2)
    else none

/-- Decode the members of a nonempty JSON object, after the opening brace;
fuel bounds the number of members. -/
def parsePairs :
    Nat → List Char → Option (List (List Char × JVal) × List Char)
  | 0, _ => none
  | fuel + 1, cs =>
    match cs with
    | [] => none
    | c :: rest =>
      if c = '"' then
        match parseStrBody rest with
        | none => none
        | some kr =>
          match kr.2 with
          | [] => none
          | c2 :: r2 =>
            if c2 = ':' then
              match parseJVal fuel r2 with
              | none => none
              | some vr =>
                match vr.2 with
                | [] => none
                | c3 :: r4 =>
                  if c3 = '\x7d' then some ([(kr.1, vr.1)], r4)
                  else if c3 = ',' then
                    match parsePairs fuel r4 with
                    | none => none
                    | some pr => some ((kr.1, vr.1) :: pr.1, pr.2)
                  else none
            else none
      else none

/-- Decode one JSON object into its member list. -/
def parseObj (fuel : Nat) (cs : List Char) :
    Option (List (List Char × JVal) × List Char) :=
  match cs with
  | [] => none
  | c :: rest =>
    if c = '\x7b' then
      match rest with
      | [] => none
      | c2 :: rest2 =>
        if c2 = '\x7d' then some ([], rest2)
        else parsePairs fuel (c2 :: rest2)
    else none

/-- First binding of a key in a decoded member list (the encoder never
emits duplicate keys). -/
def lookupKey (k : List Char) : List (List Char × JVal) → Option JVal
  | [] => none
  | kv :: rest => if kv.1 = k then some kv.2 else lookupKey k rest

/-- A string field read back by `json.Unmarshal`: absent keys leave the
zero value `""`. -/
def strField (ps : List (List Char × JVal)) (k : String) : String :=
  match lookupKey k.data ps with
  | some (.str s) => ⟨s⟩
  | _ => ""

/-- A string-slice field read back by `json.Unmarshal`: absent keys leave
the zero value `[]`. -/
def arrField (ps : List (List Char × JVal)) (k : String) : List String :=
  match lookupKey k.data ps with
  | some (.arr ss) => ss.map (fun s => (⟨s⟩ : String))
  | _ => []

/-- Rebuild a `LogFileEntry` from the decoded members, as `json.Unmarshal`
fills the struct. -/
def entryOfPairs (ps : List (List Char × JVal)) : LogFileEntry :=
  { InputPath := strField ps "input"
    OutputPath := strField ps "output"
    StartTime := strField ps "start_time"
    Duration := strField ps "duration"
    Args := arrField ps "args"
    Error := strField ps "error"
    Skipped := strField ps "skipped" }

/-- `json.Unmarshal` of one journal line into a `LogFileEntry`: the line
must contain exactly one JSON object and nothing after it. -/
def decodeEntry (cs : List Char) : Option LogFileEntry :=
  match parseObj cs.length cs with
  | none => none
  | some pr =>
    match pr.2 with
    | [] => some (entryOfPairs pr.1)
    | _ :: _ => none

/-- `AppendLog` (encodelog.go:22-38), under the exclusive lock: open for
append-only writing and write one JSON record plus the newline added by
`Encoder.Encode`. -/
def appendLog (file : List Char) (e : LogFileEntry) : List Char :=
  file ++ (encodeEntry e ++ ['\n'])

/-- The line splitting of `bufio.Scanner` with its default `ScanLines`
split: tokens are the maximal newline-free runs, with no empty final token
after a trailing newline.  (Journal records never contain a carriage
return, so `ScanLines`' CR stripping has no effect here.) -/
def splitLines : List Char → List (List Char)
  | [] => []
  | c :: cs =>
    if c = '\n' then [] :: splitLines cs
    else
      match splitLines cs with
      | [] => [[c]]
      | l :: ls => (c :: l) :: ls

/-- `ReadLog` (encodelog.go:40-66), under the shared lock: scan the journal
line by line, decode each line, and silently skip lines that fail to
parse. -/
def readLog (file : List Char) : List LogFileEntry :=
  (splitLines file).filterMap decodeEntry

/-- A sequence of `AppendLog` calls executed one after the other (the
control-file lock serialises concurrent appenders). -/
def appendAll (file : List Char) (es : List LogFileEntry) : List Char :=
  es.foldl appendLog file

/-- Fuel measure needed to decode a member list: one unit per member plus
one per array element. -/
def valSize : JVal → Nat
  | .str _ => 0
  | .arr ss => ss.length

/-- Total fuel measure of a member list. -/
def pairsSize (ps : List (List Char × JVal)) : Nat :=
  ps.foldr (fun kv acc => 1 + valSize kv.2 + acc) 0

end Encodelog

namespace Transcoder

/-- Outcome of the `namedLockSet.TryAcquire(infile)` call in
`transcodeMatch` (main.go:187): success, `ErrLockAlreadyHeld` naming the
owner PID, or another (I/O) error. -/
inductive AcquireOutcome where
  | ok
  | held (pid : Nat)
  | ioErr
deriving DecidableEq, Repr

/-- Outcome of `createFfmpegCommand` (main.go:207): an argument vector, the
`errSkip` sentinel, or another error. -/
inductive CmdOutcome where
  | ok (args : List String)
  | skip
  | err
deriving DecidableEq, Repr

/-- The environment a single `transcodeMatch` call observes: results of its
stat calls, lock acquisition, command construction and transform run.
`journalHasEntry` records whether the journal holds an entry for this job
at the moment the lock is held; the Go code never consults it inside
`transcodeMatch`, which is exactly what claim C4 is about. -/
structure Env where
  outfileExists1 : Bool
  acquire : AcquireOutcome
  outfileExists2 : Bool
  journalHasEntry : Bool
  mkdirOk : Bool
  cmd : CmdOutcome
  runOk : Bool
  runErrMsg : String
  startTime : String
  elapsed : String
deriving Repr

/-- The externally visible effects `transcodeMatch` can perform, in
order. -/
inductive Effect where
  | tryAcquire (name : String)
  | releaseLock (name : String)
  | transform (args : List String) (outPath : String)
  | appendJournal (entry : Encodelog.LogFileEntry)
  | renameFile (src : String) (dst : String)
  | removeFile (path : String)
deriving DecidableEq, Repr

/-- The body of `transcodeMatch` (main.go:197-253) once the lock is held:
re-stat the output, create its directory, build the ffmpeg command against
the temporary path `outfile + ".transcode.mkv"`, run it; on failure append
an error journal entry then delete the temporary file; on success append a
success journal entry then rename temporary to final. -/
def transcodeBody (infile outfile : String) (env : Env) : List Effect :=
  if env.outfileExists2 then []
  else if env.mkdirOk = false then []
  else
    match env.cmd with
    | .skip => []
    | .err => []
    | .ok args =>
      let tmp := outfile ++ ".transcode.mkv"
      let baseLog : Encodelog.LogFileEntry :=
        { InputPath := infile
          OutputPath := outfile
          StartTime := env.startTime
          Duration := "0s"
          Args := args
          Error := ""
          Skipped := "" }
      if env.runOk then
        [.transform args tmp,
          .appendJournal { baseLog with Duration := env.elapsed },
          .renameFile tmp outfile]
      else
        [.transform args tmp,
          .appendJournal
            { baseLog with Error := env.runErrMsg, Duration := env.elapsed },
          .removeFile tmp]

/-- `transcodeMatch` (main.go:179-254) as its sequence of effects: stat the
output, try to acquire the lock **on the input path** (main.go:187), and on
success run the body with the deferred `Release(infile)` executed last; a
`LockHeld` or other acquisition error abandons the job with nothing else
done (the deferred release is only installed after a successful
acquisition). -/
def transcodeMatch (infile outfile : String) (env : Env) : List Effect :=
  if env.outfileExists1 then []
  else
    match env.acquire with
    | .held _ => [.tryAcquire infile]
    | .ioErr => [.tryAcquire infile]
    | .ok =>
      .tryAcquire infile ::
        (transcodeBody infile outfile env ++ [.releaseLock infile])

/-- `filepath.Ext`: scanning backwards from the end of the path, stop at a
path separator; the extension starts at the first dot found.  The input is
the reversed character list; the accumulator holds the characters already
passed, in forward order. -/
def extFromRev : List Char → List Char → List Char
  | [], _ => []
  | c :: rest, acc =>
    if c = '/' then []
    else if c = '.' then c :: acc
    else extFromRev rest (c :: acc)

/-- `filepath.Ext` on a path string. -/
def fileExt (s : String) : String := ⟨extFromRev s.data.reverse []⟩

/-- `deriveFilename` (main.go:164-168): trim the extension and append
`-svtav1enc.mkv`. -/
def deriveFilename (inFile : String) : String :=
  ⟨(inFile.data.take (inFile.data.length - (fileExt inFile).data.length)) ++
    "-svtav1enc.mkv".data⟩

/-- `lowBitrateThreshold` (main.go:42). -/
def lowBitrateThreshold : Nat := 4000000

/-- The eligibility gate of the main loop (main.go:144-150): a candidate
whose measured bit rate is below the threshold is logged and skipped with
`continue` — no further effect of any kind — and only otherwise is
`transcodeMatch` run. -/
def processEligible (bitrateBPS : Nat) (infile outfile : String)
    (env : Env) : List Effect :=
  if bitrateBPS < lowBitrateThreshold then []
  else transcodeMatch infile outfile env

/-- One discovered candidate of the main loop from step (main.go:112) on:
the output path is derived from the input path and the eligibility gate is
applied. -/
def processCandidate (bitrateBPS : Nat) (infile : String) (env : Env) :
    List Effect :=
  processEligible bitrateBPS infile (deriveFilename infile) env

/-- The journal entries appended during a trace, in order. -/
def appendedEntries (tr : List Effect) : List Encodelog.LogFileEntry :=
  tr.filterMap (fun ef =>
    match ef with
    | .appendJournal e => some e
    | _ => none)

/-- Recognisers for effect kinds, for stating ordering properties. -/
def isTransform : Effect → Bool
  | .transform _ _ => true
  | _ => false

/-- Recogniser for journal appends. -/
def isAppendJournal : Effect → Bool
  | .appendJournal _ => true
  | _ => false

/-- Recogniser for renames. -/
def isRenameFile : Effect → Bool
  | .renameFile _ _ => true
  | _ => false

/-- Recogniser for deletions. -/
def isRemoveFile : Effect → Bool
  | .removeFile _ => true
  | _ => false

/-- How many of the three outcome markers of claim C7 an entry carries:
a nonempty error, a nonempty skipped reason, a non-sentinel duration. -/
def markerCount (e : Encodelog.LogFileEntry) : Nat :=
  (if e.Error ≠ "" then 1 else 0) + (if e.Skipped ≠ "" then 1 else 0) +
    (if e.Duration ≠ "0s" then 1 else 0)

/-- An environment in which the lock is already held by PID 42. -/
def envHeld : Env :=
  { outfileExists1 := false
    acquire := .held 42
    outfileExists2 := false
    journalHasEntry := false
    mkdirOk := true
    cmd := .skip
    runOk := true
    runErrMsg := ""
    startTime := "t0"
    elapsed := "5s" }

/-- An environment in which a sibling process has already journalled the
job (but the final output file does not exist) while this process holds
the lock, and the transform would succeed. -/
def envRace : Env :=
  { outfileExists1 := false
    acquire := .ok
    outfileExists2 := false
    journalHasEntry := true
    mkdirOk := true
    cmd := .ok ["ffmpeg"]
    runOk := true
    runErrMsg := ""
    startTime := "t0"
    elapsed := "5s" }

/-- A plain successful run. -/
def envOkRun : Env := { envRace with journalHasEntry := false }

/-- A run in which the transform fails. -/
def envFailRun : Env :=
  { envRace with
    journalHasEntry := false
    runOk := false
    runErrMsg := "exit status 1" }

/-- An environment in which the final output appears (completed by a
sibling) between the first stat and the lock acquisition. -/
def envDoubleCheck : Env := { envOkRun with outfileExists2 := true }

end Transcoder

/-! ## Theorems about the lock registry -/

namespace Lockutil

/-- Dead entries dropped: when no live entry matches, the scan keeps exactly
the live entries, in order. -/
theorem scanEntries_ok (live : Nat → Bool) (name : String)
    (locks : List LockEntry)
    (h : ∀ e ∈ locks, live e.pid = true → e.name ≠ name) :
    scanEntries live name locks = .ok (locks.filter (fun e => live e.pid)) := by
  induction locks with
  | nil => rfl
  | cons e rest ih =>
    have hrest : ∀ e ∈ rest, live e.pid = true → e.name ≠ name := by
      intro x hx
      exact h x (List.mem_cons_of_mem _ hx)
    by_cases hl : live e.pid = true
    · have hne : e.name ≠ name := h e (List.mem_cons_self _ _) hl
      simp [scanEntries, hl, hne, ih hrest, List.filter_cons, Except.map]
    · simp only [Bool.not_eq_true] at hl
      simp [scanEntries, hl, ih hrest, List.filter_cons]

/-- When some live entry matches the requested name, the scan fails. -/
theorem scanEntries_error (live : Nat → Bool) (name : String)
    (locks : List LockEntry)
    (h : ∃ e ∈ locks, live e.pid = true ∧ e.name = name) :
    ∃ p, scanEntries live name locks = .error p := by
  induction locks with
  | nil => simp at h
  | cons e rest ih =>
    rcases h with ⟨x, hx, hlive, hname⟩
    rcases List.mem_cons.mp hx with rfl | hx'
    · exact ⟨x.pid, by simp [scanEntries, hlive, hname]⟩
    · by_cases hl : live e.pid = true
      · by_cases hn : e.name = name
        · exact ⟨e.pid, by simp [scanEntries, hl, hn]⟩
        · rcases ih ⟨x, hx', hlive, hname⟩ with ⟨p, hp⟩
          exact ⟨p, by simp [scanEntries, hl, hn, hp, Except.map]⟩
      · simp only [Bool.not_eq_true] at hl
        rcases ih ⟨x, hx', hlive, hname⟩ with ⟨p, hp⟩
        exact ⟨p, by simp [scanEntries, hl, hp]⟩

/-- The PID reported by a failing scan belongs to a live entry of the
registry whose name is the requested one. -/
theorem scanEntries_error_mem (live : Nat → Bool) (name : String)
    (locks : List LockEntry) (p : Nat)
    (h : scanEntries live name locks = .error p) :
    ∃ e ∈ locks, e.pid = p ∧ live e.pid = true ∧ e.name = name := by
  induction locks with
  | nil => simp [scanEntries] at h
  | cons e rest ih =>
    by_cases hl : live e.pid = true
    · by_cases hn : e.name = name
      · refine ⟨e, List.mem_cons_self _ _, ?_, hl, hn⟩
        simp [scanEntries, hl, hn] at h
        omega
      · simp only [scanEntries, hl, if_true, hn, if_false] at h
        rcases hres : scanEntries live name rest with q | keep
        · rw [hres] at h
          simp only [Except.map] at h
          rcases ih (by rw [hres]; cases h; rfl) with ⟨x, hx, hxe⟩
          exact ⟨x, List.mem_cons_of_mem _ hx, hxe⟩
        · rw [hres] at h
          simp [Except.map] at h
    · simp only [Bool.not_eq_true] at hl
      simp only [scanEntries, hl, Bool.false_eq_true, if_false] at h
      rcases ih h with ⟨x, hx, hxe⟩
      exact ⟨x, List.mem_cons_of_mem _ hx, hxe⟩

/-- A successful scan returns exactly the live entries and implies that no
live entry matched the requested name. -/
theorem scanEntries_ok_inv (live : Nat → Bool) (name : String)
    (locks keep : List LockEntry)
    (h : scanEntries live name locks = .ok keep) :
    keep = locks.filter (fun e => live e.pid) ∧
      ∀ e ∈ locks, live e.pid = true → e.name ≠ name := by
  induction locks generalizing keep with
  | nil =>
    simp only [scanEntries, Except.ok.injEq] at h
    subst h
    exact ⟨rfl, by simp⟩
  | cons e rest ih =>
    by_cases hl : live e.pid = true
    · by_cases hn : e.name = name
      · simp [scanEntries, hl, hn] at h
      · rcases hres : scanEntries live name rest with p | k
        · rw [scanEntries, if_pos hl, if_neg hn, hres] at h
          simp [Except.map] at h
        · rw [scanEntries, if_pos hl, if_neg hn, hres] at h
          simp only [Except.map, Except.ok.injEq] at h
          subst h
          rcases ih k hres with ⟨hk, hrest⟩
          constructor
          · simp [List.filter_cons, hl, hk]
          · intro x hx hxl
            rcases List.mem_cons.mp hx with rfl | hx'
            · exact hn
            · exact hrest x hx' hxl
    · simp only [Bool.not_eq_true] at hl
      rw [scanEntries, hl] at h
      simp only [Bool.false_eq_true, if_false] at h
      rcases ih keep h with ⟨hk, hrest⟩
      constructor
      · simp [List.filter_cons, hl, hk]
      · intro x hx hxl
        rcases List.mem_cons.mp hx with rfl | hx'
        · rw [hl] at hxl
          cases hxl
        · exact hrest x hx' hxl

/-- `tryAcquire` fails exactly when the scan fails, with the same PID. -/
theorem tryAcquire_error_iff_scan (live : Nat → Bool) (selfPid : Nat)
    (name : String) (locks : List LockEntry) (p : Nat) :
    tryAcquire live selfPid name locks = .error p ↔
      scanEntries live name locks = .error p := by
  unfold tryAcquire
  rcases h : scanEntries live name locks with q | keep <;> simp [h]

/-- C1: `TryAcquire(name)` fails with `ErrLockAlreadyHeld` if and only if,
after discarding every entry whose owner process is not live, some
remaining entry has that name; the PID it reports owns such an entry and is
live; and otherwise the call succeeds, persisting the surviving (live)
entries followed by the new entry `{name, selfPID}`.  In particular an
entry whose owner is dead never causes acquisition to fail. -/
theorem tryAcquire_held_iff_live_entry (live : Nat → Bool) (selfPid : Nat)
    (name : String) (locks : List LockEntry) :
    ((∃ p, tryAcquire live selfPid name locks = .error p) ↔
        ∃ e ∈ locks.filter (fun e => live e.pid), e.name = name) ∧
      (∀ p, tryAcquire live selfPid name locks = .error p →
        ∃ e ∈ locks, e.pid = p ∧ live e.pid = true ∧ e.name = name) ∧
      ((∀ e ∈ locks.filter (fun e => live e.pid), e.name ≠ name) →
        tryAcquire live selfPid name locks =
          .ok (locks.filter (fun e => live e.pid) ++ [⟨name, selfPid⟩])) := by
  refine ⟨⟨?_, ?_⟩, ?_, ?_⟩
  · rintro ⟨p, hp⟩
    rw [tryAcquire_error_iff_scan] at hp
    rcases scanEntries_error_mem live name locks p hp with ⟨e, he, _, hl, hn⟩
    exact ⟨e, List.mem_filter.mpr ⟨he, hl⟩, hn⟩
  · rintro ⟨e, he, hn⟩
    rcases List.mem_filter.mp he with ⟨hmem, hl⟩
    rcases scanEntries_error live name locks ⟨e, hmem, hl, hn⟩ with ⟨p, hp⟩
    exact ⟨p, (tryAcquire_error_iff_scan live selfPid name locks p).mpr hp⟩
  · intro p hp
    rw [tryAcquire_error_iff_scan] at hp
    exact scanEntries_error_mem live name locks p hp
  · intro h
    have h' : ∀ e ∈ locks, live e.pid = true → e.name ≠ name := by
      intro e he hl
      exact h e (List.mem_filter.mpr ⟨he, hl⟩)
    unfold tryAcquire
    rw [scanEntries_ok live name locks h']

/-- Witness for C1 at concrete registries: with PID 2 the only live
process, acquiring "a" fails against the live owner 2 even though the dead
entry for PID 1 also names "a"; acquiring "b" succeeds and persists only
the live entry plus the new one; and a name owned solely by the dead PID 1
is acquired successfully. -/
theorem tryAcquire_held_iff_live_entry_witness :
    (∃ e ∈ ([⟨"a", 1⟩, ⟨"a", 2⟩] : List LockEntry).filter
        (fun e => (fun p => p == 2) e.pid), e.name = "a") ∧
      (∃ e ∈ ([⟨"a", 1⟩, ⟨"a", 2⟩] : List LockEntry),
        e.pid = 2 ∧ (fun p => p == 2) e.pid = true ∧ e.name = "a") ∧
      tryAcquire (fun p => p == 2) 3 "b" [⟨"a", 1⟩, ⟨"a", 2⟩] =
        .ok [⟨"a", 2⟩, ⟨"b", 3⟩] ∧
      tryAcquire (fun p => p == 2) 3 "c" [⟨"c", 1⟩] = .ok [⟨"c", 3⟩] := by
  refine ⟨?_, ?_, ?_, ?_⟩
  · exact (tryAcquire_held_iff_live_entry (fun p => p == 2) 3 "a"
      [⟨"a", 1⟩, ⟨"a", 2⟩]).1.mp ⟨2, rfl⟩
  · exact (tryAcquire_held_iff_live_entry (fun p => p == 2) 3 "a"
      [⟨"a", 1⟩, ⟨"a", 2⟩]).2.1 2 rfl
  · exact (tryAcquire_held_iff_live_entry (fun p => p == 2) 3 "b"
      [⟨"a", 1⟩, ⟨"a", 2⟩]).2.2 (by decide)
  · exact (tryAcquire_held_iff_live_entry (fun p => p == 2) 3 "c"
      [⟨"c", 1⟩]).2.2 (by decide)

end Lockutil

namespace Lockutil

/-- The `Release` loop is the filter keeping entries that do not match
`(name, selfPid)`. -/
theorem release_eq_filter (selfPid : Nat) (name : String)
    (locks : List LockEntry) :
    release selfPid name locks =
      locks.filter (fun e => !(e.name == name && e.pid == selfPid)) := by
  induction locks with
  | nil => rfl
  | cons e rest ih =>
    by_cases h1 : e.name = name
    · by_cases h2 : e.pid = selfPid
      · have hcond : ¬(e.name ≠ name ∨ e.pid ≠ selfPid) := by simp [h1, h2]
        simp [release, hcond, List.filter_cons, h1, h2, ih]
      · have hcond : e.name ≠ name ∨ e.pid ≠ selfPid := Or.inr h2
        simp [release, hcond, List.filter_cons, h1, h2, ih]
    · have hcond : e.name ≠ name ∨ e.pid ≠ selfPid := Or.inl h1
      simp [release, hcond, List.filter_cons, h1, ih]

/-- C3: the registry invariant — at most one live-owned entry per name — is
preserved by `TryAcquire` (whether it succeeds or fails) and by `Release`
run by any process. -/
theorem registry_invariant_preserved (live : Nat → Bool) (selfPid : Nat)
    (name : String) (locks : List LockEntry)
    (h : invariantAtMostOne live locks) :
    invariantAtMostOne live (tryAcquireState live selfPid name locks) ∧
      invariantAtMostOne live (release selfPid name locks) := by
  constructor
  · unfold tryAcquireState
    rcases hres : tryAcquire live selfPid name locks with p | newLocks
    · exact h
    · unfold tryAcquire at hres
      rcases hscan : scanEntries live name locks with q | keep
      · rw [hscan] at hres
        cases hres
      · rw [hscan] at hres
        injection hres with hh
        subst hh
        obtain ⟨hk, hnomatch⟩ := scanEntries_ok_inv live name locks keep hscan
        subst hk
        intro n
        simp only [ownedLiveCount, List.countP_append]
        by_cases hn : n = name
        · subst hn
          have hz : (locks.filter (fun e => live e.pid)).countP
              (fun e => live e.pid && (e.name == n)) = 0 := by
            rw [List.countP_eq_zero]
            intro a ha
            rcases List.mem_filter.mp ha with ⟨hmem, hl⟩
            have hne : a.name ≠ n := hnomatch a hmem hl
            simp [hne]
          rw [hz]
          have hone : List.countP (fun e => live e.pid && (e.name == n))
              [(⟨n, selfPid⟩ : LockEntry)] ≤ 1 := by
            simp only [List.countP_cons, List.countP_nil]
            split <;> omega
          omega
        · have h1 : (locks.filter (fun e => live e.pid)).countP
              (fun e => live e.pid && (e.name == n)) ≤
                locks.countP (fun e => live e.pid && (e.name == n)) :=
            (List.filter_sublist locks).countP_le _
          have h2 : List.countP (fun e => live e.pid && (e.name == n))
              [(⟨name, selfPid⟩ : LockEntry)] = 0 := by
            have : name ≠ n := fun hc => hn hc.symm
            simp [this]
          rw [h2]
          have h3 := h n
          simp only [ownedLiveCount] at h3
          omega
  · rw [release_eq_filter]
    intro n
    have h1 : (locks.filter
        (fun e => !(e.name == name && e.pid == selfPid))).countP
          (fun e => live e.pid && (e.name == n)) ≤
            locks.countP (fun e => live e.pid && (e.name == n)) :=
      (List.filter_sublist locks).countP_le _
    have h2 := h n
    simp only [ownedLiveCount] at h2 ⊢
    omega

/-- Witness for C3: the registry `[{a,1},{a,2}]` with only PID 2 live
satisfies the invariant, and keeps satisfying it after a failed
`TryAcquire("a")` by PID 3, after a successful `TryAcquire("b")` by PID 3,
and after `Release("a")` by PID 2. -/
theorem registry_invariant_preserved_witness :
    invariantAtMostOne (fun p => p == 2)
        (tryAcquireState (fun p => p == 2) 3 "a" [⟨"a", 1⟩, ⟨"a", 2⟩]) ∧
      invariantAtMostOne (fun p => p == 2)
        (release 3 "a" [⟨"a", 1⟩, ⟨"a", 2⟩]) := by
  have hinv : invariantAtMostOne (fun p => p == 2) [⟨"a", 1⟩, ⟨"a", 2⟩] := by
    intro n
    by_cases hn : ("a" : String) = n <;>
      simp [ownedLiveCount, List.countP_cons, hn]
  exact registry_invariant_preserved (fun p => p == 2) 3 "a"
    [⟨"a", 1⟩, ⟨"a", 2⟩] hinv

/-- C8: `Release(name)` removes exactly the entries `(name, selfPid)` and
leaves every other entry — other names, other owners, dead owners — in
place and in order; when the caller holds no entry for the name, the
registry is unchanged (and the call reports success: the Go function has no
failure outcome besides propagated I/O errors). -/
theorem release_exact (selfPid : Nat) (name : String)
    (locks : List LockEntry) :
    release selfPid name locks =
        locks.filter (fun e => !(e.name == name && e.pid == selfPid)) ∧
      ((∀ e ∈ locks, ¬(e.name = name ∧ e.pid = selfPid)) →
        release selfPid name locks = locks) := by
  refine ⟨release_eq_filter selfPid name locks, fun hnone => ?_⟩
  rw [release_eq_filter]
  apply List.filter_eq_self.mpr
  intro a ha
  rcases not_and_or.mp (hnone a ha) with h1 | h2
  · simp [h1]
  · simp [h2]

/-- Witness for C8: releasing `"a"` as PID 2 removes only `{a,2}`, keeping
the dead-owned `{a,1}` and the other names in order; releasing a name the
caller never acquired is a no-op. -/
theorem release_exact_witness :
    release 2 "a" [⟨"a", 1⟩, ⟨"b", 2⟩, ⟨"a", 2⟩, ⟨"c", 3⟩] =
        [⟨"a", 1⟩, ⟨"b", 2⟩, ⟨"c", 3⟩] ∧
      release 2 "z" [⟨"a", 1⟩, ⟨"b", 2⟩, ⟨"a", 2⟩, ⟨"c", 3⟩] =
        [⟨"a", 1⟩, ⟨"b", 2⟩, ⟨"a", 2⟩, ⟨"c", 3⟩] := by
  constructor
  · exact ((release_exact 2 "a"
      [⟨"a", 1⟩, ⟨"b", 2⟩, ⟨"a", 2⟩, ⟨"c", 3⟩]).1).trans (by decide)
  · exact (release_exact 2 "z"
      [⟨"a", 1⟩, ⟨"b", 2⟩, ⟨"a", 2⟩, ⟨"c", 3⟩]).2 (by decide)

/-- C10: a `TryAcquire` that fails with `LockHeld` leaves the persisted
registry file exactly as it was: no entry is appended and the dead-owner
entries spotted during the scan are not dropped — reclamation is only
persisted by a successful acquisition. -/
theorem tryAcquire_failure_leaves_registry_unchanged (live : Nat → Bool)
    (selfPid : Nat) (name : String) (locks : List LockEntry) (p : Nat)
    (h : tryAcquire live selfPid name locks = .error p) :
    tryAcquireState live selfPid name locks = locks := by
  unfold tryAcquireState
  rw [h]

/-- Witness for C10: with only PID 2 live, acquiring `"a"` fails against
owner 2, and the registry still contains the dead-owned entry `{x,9}` that
a successful acquisition would have reclaimed. -/
theorem tryAcquire_failure_leaves_registry_unchanged_witness :
    tryAcquireState (fun p => p == 2) 3 "a" [⟨"x", 9⟩, ⟨"a", 2⟩] =
      [⟨"x", 9⟩, ⟨"a", 2⟩] :=
  tryAcquire_failure_leaves_registry_unchanged (fun p => p == 2) 3 "a"
    [⟨"x", 9⟩, ⟨"a", 2⟩] 2 rfl

end Lockutil

/-! ## Theorems about the orchestrator -/

namespace Transcoder

/-- The post-acquisition body never attempts a lock acquisition. -/
theorem tryAcquire_not_mem_body (infile outfile : String) (env : Env)
    (n : String) : Effect.tryAcquire n ∉ transcodeBody infile outfile env := by
  unfold transcodeBody
  rcases env with ⟨o1, acq, o2, jh, mk, cmd, rOk, rMsg, sT, el⟩
  cases o2 <;> cases mk <;> cases cmd <;> cases rOk <;> simp

/-- C2 counterexample: for the concrete job with input `/a.mp4` (whose
derived output path is `/a-svtav1enc.mkv`), when another process holds the
lock, the name the orchestrator passed to `TryAcquire` is the input path,
not the derived output path — the acquisition of the output-path name never
appears in the trace. -/
theorem transcodeMatch_lock_name_counterexample :
    transcodeMatch "/a.mp4" (deriveFilename "/a.mp4") envHeld =
        [.tryAcquire "/a.mp4"] ∧
      deriveFilename "/a.mp4" = "/a-svtav1enc.mkv" ∧
      Effect.tryAcquire (deriveFilename "/a.mp4") ∉
        transcodeMatch "/a.mp4" (deriveFilename "/a.mp4") envHeld := by
  decide

/-- C2 (amended): the mutual-exclusion name passed to `TryAcquire` is the
job's **input** path (from which the output path is derived
deterministically), and when the lock is already held the orchestrator
abandons the job immediately: the whole trace is the single failed
acquisition — no journal entry, no transform, no release. -/
theorem transcodeMatch_locks_inputPath (infile outfile : String) (env : Env) :
    (∀ n, Effect.tryAcquire n ∈ transcodeMatch infile outfile env →
        n = infile) ∧
      (∀ p, env.outfileExists1 = false → env.acquire = .held p →
        transcodeMatch infile outfile env = [.tryAcquire infile]) := by
  constructor
  · intro n hn
    unfold transcodeMatch at hn
    by_cases h1 : env.outfileExists1
    · simp [h1] at hn
    · simp only [h1, Bool.false_eq_true, if_false] at hn
      rcases hacq : env.acquire with _ | p
      · rw [hacq] at hn
        rcases List.mem_cons.mp hn with h | h
        · cases h
          rfl
        · rcases List.mem_append.mp h with h' | h'
          · exact absurd h' (tryAcquire_not_mem_body infile outfile env n)
          · simp at h'
      · rw [hacq] at hn
        simp at hn
        exact hn
      · rw [hacq] at hn
        simp at hn
        exact hn
  · intro p h1 hacq
    unfold transcodeMatch
    simp [h1, hacq]

/-- Witness for C2 (amended) at the concrete held-lock environment. -/
theorem transcodeMatch_locks_inputPath_witness :
    transcodeMatch "/a.mp4" "/a-svtav1enc.mkv" envHeld =
      [.tryAcquire "/a.mp4"] :=
  (transcodeMatch_locks_inputPath "/a.mp4" "/a-svtav1enc.mkv" envHeld).2 42
    rfl rfl

/-- C4 counterexample: in the race environment a journal entry for the job
exists while the lock is held (`journalHasEntry = true`), yet the
orchestrator still invokes the transform — it re-checks only the output
file, never the journal. -/
theorem transcodeMatch_no_journal_recheck_counterexample :
    envRace.journalHasEntry = true ∧
      Effect.transform ["ffmpeg"] ("/a-svtav1enc.mkv" ++ ".transcode.mkv") ∈
        transcodeMatch "/a.mp4" "/a-svtav1enc.mkv" envRace := by
  decide

/-- C4 (amended): after acquiring the lock the orchestrator re-checks only
that the final output file exists; when it does, the job is abandoned with
the lock released and nothing else — in particular no transform and no
journal write.  (No journal re-check takes place; the journal state while
holding the lock does not influence the trace.) -/
theorem transcodeMatch_rechecks_output_only (infile outfile : String)
    (env : Env) (h1 : env.outfileExists1 = false) (h2 : env.acquire = .ok)
    (h3 : env.outfileExists2 = true) :
    transcodeMatch infile outfile env =
      [.tryAcquire infile, .releaseLock infile] := by
  unfold transcodeMatch transcodeBody
  simp [h1, h2, h3]

/-- Witness for C4 (amended) at the concrete double-check environment. -/
theorem transcodeMatch_rechecks_output_only_witness :
    transcodeMatch "/a.mp4" "/a-svtav1enc.mkv" envDoubleCheck =
      [.tryAcquire "/a.mp4", .releaseLock "/a.mp4"] :=
  transcodeMatch_rechecks_output_only "/a.mp4" "/a-svtav1enc.mkv"
    envDoubleCheck rfl rfl rfl

/-- C5 counterexample: in a concrete successful run the journal append (at
index 2 of the trace) happens strictly before the rename (at index 3), so
"rename before append" fails on the success path. -/
theorem transcodeMatch_rename_order_counterexample :
    (transcodeMatch "/a.mp4" "/a-svtav1enc.mkv" envOkRun).findIdx
        isAppendJournal = 2 ∧
      (transcodeMatch "/a.mp4" "/a-svtav1enc.mkv" envOkRun).findIdx
        isRenameFile = 3 ∧
      ¬((transcodeMatch "/a.mp4" "/a-svtav1enc.mkv" envOkRun).findIdx
            isRenameFile <
          (transcodeMatch "/a.mp4" "/a-svtav1enc.mkv" envOkRun).findIdx
            isAppendJournal) := by
  decide

/-- C5 (amended): the transform is always invoked against the temporary
path `outfile + ".transcode.mkv"`, which differs from the final path; on
success the trace is acquire, transform, append of the success entry
(elapsed duration, empty error), **then** rename temporary → final, then
release; on failure it is acquire, transform, append of the error entry,
then deletion of the temporary file, then release — no rename. -/
theorem transcodeMatch_transform_outcome (infile outfile : String)
    (env : Env) (args : List String) (h1 : env.outfileExists1 = false)
    (h2 : env.acquire = .ok) (h3 : env.outfileExists2 = false)
    (h4 : env.mkdirOk = true) (h5 : env.cmd = .ok args) :
    (env.runOk = true →
        transcodeMatch infile outfile env =
          [.tryAcquire infile,
            .transform args (outfile ++ ".transcode.mkv"),
            .appendJournal
              ⟨infile, outfile, env.startTime, env.elapsed, args, "", ""⟩,
            .renameFile (outfile ++ ".transcode.mkv") outfile,
            .releaseLock infile]) ∧
      (env.runOk = false →
        transcodeMatch infile outfile env =
          [.tryAcquire infile,
            .transform args (outfile ++ ".transcode.mkv"),
            .appendJournal
              ⟨infile, outfile, env.startTime, env.elapsed, args,
                env.runErrMsg, ""⟩,
            .removeFile (outfile ++ ".transcode.mkv"),
            .releaseLock infile]) ∧
      (∀ a p, Effect.transform a p ∈ transcodeMatch infile outfile env →
        p = outfile ++ ".transcode.mkv") ∧
      outfile ++ ".transcode.mkv" ≠ outfile := by
  refine ⟨?_, ?_, ?_, ?_⟩
  · intro hrun
    unfold transcodeMatch transcodeBody
    simp [h1, h2, h3, h4, h5, hrun]
  · intro hrun
    unfold transcodeMatch transcodeBody
    simp [h1, h2, h3, h4, h5, hrun]
  · intro a p hp
    unfold transcodeMatch transcodeBody at hp
    simp only [h1, h2, h3, h4, h5, Bool.false_eq_true, if_false] at hp
    rcases hrun : env.runOk with _ | _ <;> rw [hrun] at hp <;>
      simp at hp <;> exact hp.2
  · intro hc
    have h := congrArg String.length hc
    rw [String.length_append] at h
    have h14 : (".transcode.mkv" : String).length = 14 := rfl
    omega

/-- Witness for C5 (amended) at the concrete success and failure
environments. -/
theorem transcodeMatch_transform_outcome_witness :
    transcodeMatch "/a.mp4" "/a-svtav1enc.mkv" envOkRun =
        [.tryAcquire "/a.mp4",
          .transform ["ffmpeg"] "/a-svtav1enc.mkv.transcode.mkv",
          .appendJournal
            ⟨"/a.mp4", "/a-svtav1enc.mkv", "t0", "5s", ["ffmpeg"], "", ""⟩,
          .renameFile "/a-svtav1enc.mkv.transcode.mkv" "/a-svtav1enc.mkv",
          .releaseLock "/a.mp4"] ∧
      transcodeMatch "/a.mp4" "/a-svtav1enc.mkv" envFailRun =
        [.tryAcquire "/a.mp4",
          .transform ["ffmpeg"] "/a-svtav1enc.mkv.transcode.mkv",
          .appendJournal
            ⟨"/a.mp4", "/a-svtav1enc.mkv", "t0", "5s", ["ffmpeg"],
              "exit status 1", ""⟩,
          .removeFile "/a-svtav1enc.mkv.transcode.mkv",
          .releaseLock "/a.mp4"] := by
  constructor
  · exact ((transcodeMatch_transform_outcome "/a.mp4" "/a-svtav1enc.mkv"
      envOkRun ["ffmpeg"] rfl rfl rfl rfl rfl).1 rfl).trans (by decide)
  · exact ((transcodeMatch_transform_outcome "/a.mp4" "/a-svtav1enc.mkv"
      envFailRun ["ffmpeg"] rfl rfl rfl rfl rfl).2.1 rfl).trans (by decide)

end Transcoder

namespace Transcoder

/-- C6: the eligibility gate of the main loop drops a low-bit-rate
candidate with a bare `continue` — its trace is empty, so in particular no
`skipped` journal entry (indeed no journal entry at all) is ever appended
for it, and nothing prevents the candidate from being re-probed on every
future run. -/
theorem lowBitrate_appends_no_journal_entry (bitrateBPS : Nat)
    (h : bitrateBPS < 4000000) (infile : String) (env : Env) :
    processCandidate bitrateBPS infile env = [] := by
  unfold processCandidate processEligible lowBitrateThreshold
  simp [h]

/-- Witness for C6: the failing input — a candidate measured at
3000000 bps, below the 4000000 bps threshold — produces no effect, hence no
`skipped` journal entry. -/
theorem lowBitrate_appends_no_journal_entry_witness :
    processCandidate 3000000 "/a.mp4" envOkRun = [] :=
  lowBitrate_appends_no_journal_entry 3000000 (by decide) "/a.mp4" envOkRun

/-- C7 counterexample: the error entry appended by the concrete failing run
carries two of the claim's outcome markers at once — a nonempty `error`
and a non-sentinel `duration` (the elapsed time of the failed attempt). -/
theorem journal_entry_two_markers_counterexample :
    appendedEntries (transcodeMatch "/a.mp4" "/a-svtav1enc.mkv" envFailRun) =
        [⟨"/a.mp4", "/a-svtav1enc.mkv", "t0", "5s", ["ffmpeg"],
          "exit status 1", ""⟩] ∧
      markerCount
        ⟨"/a.mp4", "/a-svtav1enc.mkv", "t0", "5s", ["ffmpeg"],
          "exit status 1", ""⟩ = 2 := by
  decide

/-- C7 (amended): every journal entry the orchestrator appends has an empty
`skipped` field (so `error` and `skipped` are never both present — in fact
`skipped` is never appended at all) and carries the run's elapsed time as
its `duration`; hence an entry without `error` is a success entry with a
non-sentinel duration whenever the elapsed time is not the `"0s"` sentinel,
but an `error` entry carries that same non-sentinel duration alongside the
error text. -/
theorem appended_entry_outcome_fields (infile outfile : String) (env : Env)
    (e : Encodelog.LogFileEntry)
    (he : e ∈ appendedEntries (transcodeMatch infile outfile env)) :
    e.Skipped = "" ∧ e.Duration = env.elapsed ∧
      (e.Error = "" ∨ e.Error = env.runErrMsg) := by
  rcases env with ⟨o1, acq, o2, jh, mk, cmd, rOk, rMsg, sT, el⟩
  simp only [transcodeMatch, transcodeBody] at he
  cases o1 with
  | true => simp [appendedEntries] at he
  | false =>
    cases acq with
    | held p => simp [appendedEntries] at he
    | ioErr => simp [appendedEntries] at he
    | ok =>
      cases o2 with
      | true => simp [appendedEntries] at he
      | false =>
        cases mk with
        | false => simp [appendedEntries] at he
        | true =>
          cases cmd with
          | skip => simp [appendedEntries] at he
          | err => simp [appendedEntries] at he
          | ok args =>
            cases rOk with
            | true =>
              simp [appendedEntries] at he
              subst he
              simp
            | false =>
              simp [appendedEntries] at he
              subst he
              simp

/-- Witness for C7 (amended) at the concrete failing run: the error entry
has an empty `skipped` field and duration `"5s"`. -/
theorem appended_entry_outcome_fields_witness :
    (⟨"/a.mp4", "/a-svtav1enc.mkv", "t0", "5s", ["ffmpeg"],
        "exit status 1", ""⟩ : Encodelog.LogFileEntry).Skipped = "" ∧
      (⟨"/a.mp4", "/a-svtav1enc.mkv", "t0", "5s", ["ffmpeg"],
        "exit status 1", ""⟩ : Encodelog.LogFileEntry).Duration =
        envFailRun.elapsed ∧
      ((⟨"/a.mp4", "/a-svtav1enc.mkv", "t0", "5s", ["ffmpeg"],
        "exit status 1", ""⟩ : Encodelog.LogFileEntry).Error = "" ∨
        (⟨"/a.mp4", "/a-svtav1enc.mkv", "t0", "5s", ["ffmpeg"],
          "exit status 1", ""⟩ : Encodelog.LogFileEntry).Error =
          envFailRun.runErrMsg) :=
  appended_entry_outcome_fields "/a.mp4" "/a-svtav1enc.mkv" envFailRun
    ⟨"/a.mp4", "/a-svtav1enc.mkv", "t0", "5s", ["ffmpeg"],
      "exit status 1", ""⟩ (by decide)

end Transcoder


/-! ## Theorems about the completion journal -/

namespace Encodelog

/-- `hexVal` inverts `hexDigit` on digit values. -/
theorem hexVal_hexDigit (n : Nat) (h : n < 16) :
    hexVal (hexDigit n) = some n := by
  interval_cases n <;> rfl

/-- Decoding one escaped character from the front of a string body
recovers the character. -/
theorem parseStrBody_escChar (c : Char) (t : List Char) (s2 r2 : List Char)
    (ht : parseStrBody t = some (s2, r2)) :
    parseStrBody (escChar c ++ t) = some (c :: s2, r2) := by
  by_cases h1 : c = '"'
  · subst h1
    rw [show escChar '"' = ['\\', '"'] from rfl]
    simp only [List.cons_append, List.nil_append]
    rw [parseStrBody.eq_def]
    simp [unescCh, ht]
  · by_cases h2 : c = '\\'
    · subst h2
      rw [show escChar '\\' = ['\\', '\\'] from rfl]
      simp only [List.cons_append, List.nil_append]
      rw [parseStrBody.eq_def]
      simp [unescCh, ht]
    · by_cases h3 : c = '\n'
      · subst h3
        rw [show escChar '\n' = ['\\', 'n'] from rfl]
        simp only [List.cons_append, List.nil_append]
        rw [parseStrBody.eq_def]
        simp [unescCh, ht]
      · by_cases h4 : c = '\r'
        · subst h4
          rw [show escChar '\r' = ['\\', 'r'] from rfl]
          simp only [List.cons_append, List.nil_append]
          rw [parseStrBody.eq_def]
          simp [unescCh, ht]
        · by_cases h5 : c = '\t'
          · subst h5
            rw [show escChar '\t' = ['\\', 't'] from rfl]
            simp only [List.cons_append, List.nil_append]
            rw [parseStrBody.eq_def]
            simp [unescCh, ht]
          · by_cases h6 : c.toNat < 32
            · have heq : escChar c = ['\\', 'u', '0', '0',
                  hexDigit (c.toNat / 16), hexDigit (c.toNat % 16)] := by
                unfold escChar
                rw [if_neg h1, if_neg h2, if_neg h3, if_neg h4, if_neg h5,
                  if_pos h6]
              rw [heq]
              simp only [List.cons_append, List.nil_append]
              rw [parseStrBody.eq_def]
              have hhi : c.toNat / 16 < 16 := by omega
              have hlo : c.toNat % 16 < 16 := Nat.mod_lt _ (by omega)
              have h0 : hexVal '0' = some 0 := rfl
              simp [h0, hexVal_hexDigit _ hhi, hexVal_hexDigit _ hlo, ht]
              have harith : c.toNat / 16 * 16 + c.toNat % 16 = c.toNat := by
                omega
              rw [harith, Char.ofNat_toNat]
            · by_cases h7 : c = '<'
              · subst h7
                rw [show escChar '<' = ['\\', 'u', '0', '0', '3', 'c']
                  from rfl]
                simp only [List.cons_append, List.nil_append]
                rw [parseStrBody.eq_def]
                simp [hexVal, ht]
              · by_cases h8 : c = '>'
                · subst h8
                  rw [show escChar '>' = ['\\', 'u', '0', '0', '3', 'e']
                    from rfl]
                  simp only [List.cons_append, List.nil_append]
                  rw [parseStrBody.eq_def]
                  simp [hexVal, ht]
                · by_cases h9 : c = '&'
                  · subst h9
                    rw [show escChar '&' = ['\\', 'u', '0', '0', '2', '6']
                      from rfl]
                    simp only [List.cons_append, List.nil_append]
                    rw [parseStrBody.eq_def]
                    simp [hexVal, ht]
                  · by_cases h10 : c.toNat = 0x2028
                    · have hc : Char.ofNat 8232 = c := by
                        rw [← h10, Char.ofNat_toNat]
                      have heq : escChar c =
                          ['\\', 'u', '2', '0', '2', '8'] := by
                        unfold escChar
                        rw [if_neg h1, if_neg h2, if_neg h3, if_neg h4,
                          if_neg h5, if_neg h6, if_neg h7, if_neg h8,
                          if_neg h9, if_pos h10]
                      rw [heq]
                      simp only [List.cons_append, List.nil_append]
                      rw [parseStrBody.eq_def]
                      simp [hexVal, ht, hc]
                    · by_cases h11 : c.toNat = 0x2029
                      · have hc : Char.ofNat 8233 = c := by
                          rw [← h11, Char.ofNat_toNat]
                        have heq : escChar c =
                            ['\\', 'u', '2', '0', '2', '9'] := by
                          unfold escChar
                          rw [if_neg h1, if_neg h2, if_neg h3, if_neg h4,
                            if_neg h5, if_neg h6, if_neg h7, if_neg h8,
                            if_neg h9, if_neg h10, if_pos h11]
                        rw [heq]
                        simp only [List.cons_append, List.nil_append]
                        rw [parseStrBody.eq_def]
                        simp [hexVal, ht, hc]
                      · have heq : escChar c = [c] := by
                          unfold escChar
                          rw [if_neg h1, if_neg h2, if_neg h3, if_neg h4,
                            if_neg h5, if_neg h6, if_neg h7, if_neg h8,
                            if_neg h9, if_neg h10, if_neg h11]
                        rw [heq]
                        simp only [List.cons_append, List.nil_append]
                        rw [parseStrBody.eq_def]
                        simp [h1, h2, ht]

theorem parseStrBody_escape (s rest : List Char) :
    parseStrBody (escape s ++ '"' :: rest) = some (s, rest) := by
  induction s with
  | nil =>
    rw [escape, List.nil_append, parseStrBody.eq_def]
    simp
  | cons c cs ih =>
    rw [escape, List.append_assoc]
    exact parseStrBody_escChar c _ cs rest ih

end Encodelog

namespace Encodelog

/-- Decoding inverts printing for nonempty string arrays, given fuel at
least the number of elements. -/
theorem parseElems_print (ss : List (List Char)) :
    ∀ (s0 rest : List Char) (fuel : Nat), ss.length + 1 ≤ fuel →
      parseElems fuel (printElems (s0 :: ss) ++ rest) = some (s0 :: ss, rest) := by
  induction ss with
  | nil =>
    intro s0 rest fuel hf
    obtain ⟨f, rfl⟩ : ∃ f, fuel = f + 1 := ⟨fuel - 1, by omega⟩
    rw [show printElems [s0] = printJStr s0 ++ [']'] from rfl]
    simp only [printJStr, List.append_assoc, List.cons_append,
      List.nil_append]
    rw [parseElems.eq_def]
    simp [parseStrBody_escape]
  | cons s1 ss ih =>
    intro s0 rest fuel hf
    obtain ⟨f, rfl⟩ : ∃ f, fuel = f + 1 := ⟨fuel - 1, by omega⟩
    rw [show printElems (s0 :: s1 :: ss) =
      printJStr s0 ++ ',' :: printElems (s1 :: ss) from rfl]
    simp only [printJStr, List.append_assoc, List.cons_append,
      List.nil_append]
    rw [parseElems.eq_def]
    have hrec := ih s1 rest f (by simp at hf ⊢; omega)
    simp [parseStrBody_escape, hrec]

end Encodelog

namespace Encodelog

/-- Decoding inverts printing for JSON values, given fuel at least the
value's element count. -/
theorem parseJVal_print (v : JVal) (rest : List Char) (fuel : Nat)
    (hf : valSize v ≤ fuel) :
    parseJVal fuel (printJVal v ++ rest) = some (v, rest) := by
  cases v with
  | str s =>
    rw [show printJVal (.str s) = printJStr s from rfl]
    simp only [printJStr, List.append_assoc, List.cons_append,
      List.nil_append]
    rw [parseJVal.eq_def]
    simp [parseStrBody_escape]
  | arr ss =>
    cases ss with
    | nil =>
      rw [show printJVal (.arr []) = ['[', ']'] from rfl]
      simp only [List.cons_append, List.nil_append]
      rw [parseJVal.eq_def]
      simp
    | cons s0 ss' =>
      rw [show printJVal (.arr (s0 :: ss')) =
        '[' :: printElems (s0 :: ss') from rfl]
      have hT : ∃ T, printElems (s0 :: ss') = '"' :: T := by
        cases ss' <;> exact ⟨_, rfl⟩
      obtain ⟨T, hT⟩ := hT
      have hT2 : printElems (s0 :: ss') ++ rest = '"' :: (T ++ rest) := by
        rw [hT, List.cons_append]
      rw [List.cons_append, parseJVal.eq_def, hT2]
      have hpe : parseElems fuel ('"' :: (T ++ rest)) =
          some (s0 :: ss', rest) := by
        rw [← hT2]
        exact parseElems_print ss' s0 rest fuel (by simpa [valSize] using hf)
      simp [hpe]

/-- Decoding inverts printing for nonempty member lists, given fuel at
least the member-list measure. -/
theorem parsePairs_print (ps : List (List Char × JVal)) :
    ∀ (kv0 : List Char × JVal) (rest : List Char) (fuel : Nat),
      pairsSize (kv0 :: ps) ≤ fuel →
      parsePairs fuel (printPairs (kv0 :: ps) ++ rest) =
        some (kv0 :: ps, rest) := by
  induction ps with
  | nil =>
    intro kv0 rest fuel hf
    have hf1 : 1 + valSize kv0.2 ≤ fuel := by
      simpa [pairsSize] using hf
    obtain ⟨f, rfl⟩ : ∃ f, fuel = f + 1 := ⟨fuel - 1, by omega⟩
    rw [show printPairs [kv0] = printPair kv0 ++ ['\x7d'] from rfl]
    simp only [printPair, printJStr, List.append_assoc, List.cons_append,
      List.nil_append]
    rw [parsePairs.eq_def]
    have hv : parseJVal f (printJVal kv0.2 ++ ('\x7d' :: rest)) =
        some (kv0.2, '\x7d' :: rest) :=
      parseJVal_print kv0.2 _ f (by omega)
    simp [parseStrBody_escape, hv]
  | cons kv1 ps ih =>
    intro kv0 rest fuel hf
    have hf1 : 1 + valSize kv0.2 + pairsSize (kv1 :: ps) ≤ fuel := by
      simpa [pairsSize] using hf
    have hsz : 1 ≤ pairsSize (kv1 :: ps) := by
      simp [pairsSize]
      omega
    obtain ⟨f, rfl⟩ : ∃ f, fuel = f + 1 := ⟨fuel - 1, by omega⟩
    rw [show printPairs (kv0 :: kv1 :: ps) =
      printPair kv0 ++ ',' :: printPairs (kv1 :: ps) from rfl]
    simp only [printPair, printJStr, List.append_assoc, List.cons_append,
      List.nil_append]
    rw [parsePairs.eq_def]
    have hv : parseJVal f
        (printJVal kv0.2 ++ (',' :: (printPairs (kv1 :: ps) ++ rest))) =
        some (kv0.2, ',' :: (printPairs (kv1 :: ps) ++ rest)) :=
      parseJVal_print kv0.2 _ f (by omega)
    have hrec := ih kv1 rest f (by omega)
    simp [parseStrBody_escape, hv, hrec]

/-- Decoding inverts printing for whole JSON objects. -/
theorem parseObj_print (ps : List (List Char × JVal)) (rest : List Char)
    (fuel : Nat) (hf : pairsSize ps ≤ fuel) :
    parseObj fuel (printObj ps ++ rest) = some (ps, rest) := by
  cases ps with
  | nil =>
    rw [show printObj [] = ['\x7b', '\x7d'] from rfl]
    simp only [List.cons_append, List.nil_append]
    rw [parseObj.eq_def]
    simp
  | cons kv0 ps' =>
    rw [show printObj (kv0 :: ps') = '\x7b' :: printPairs (kv0 :: ps')
      from rfl]
    have hT : ∃ T, printPairs (kv0 :: ps') = '"' :: T := by
      cases ps' <;> exact ⟨_, rfl⟩
    obtain ⟨T, hT⟩ := hT
    have hT2 : printPairs (kv0 :: ps') ++ rest = '"' :: (T ++ rest) := by
      rw [hT, List.cons_append]
    rw [List.cons_append, parseObj.eq_def, hT2]
    have hpp : parsePairs fuel ('"' :: (T ++ rest)) =
        some (kv0 :: ps', rest) := by
      rw [← hT2]
      exact parsePairs_print ps' kv0 rest fuel hf
    simp [hpp]

end Encodelog

namespace Encodelog

theorem printJStr_length (s : List Char) :
    (printJStr s).length = (escape s).length + 2 := by
  simp [printJStr]

theorem printElems_length_ge (ss : List (List Char)) :
    ss.length ≤ (printElems ss).length := by
  induction ss with
  | nil => simp [printElems]
  | cons s t ih =>
    cases t with
    | nil => simp [printElems, printJStr_length]
    | cons s1 t' =>
      rw [show printElems (s :: s1 :: t') =
        printJStr s ++ ',' :: printElems (s1 :: t') from rfl]
      simp only [List.length_append, List.length_cons, printJStr_length]
      simp only [List.length_cons] at ih ⊢
      omega

theorem printJVal_length_ge (v : JVal) :
    valSize v ≤ (printJVal v).length := by
  cases v with
  | str s => simp [valSize]
  | arr ss =>
    have := printElems_length_ge ss
    simp only [valSize, printJVal, List.length_cons]
    omega

theorem printPairs_length_ge (ps : List (List Char × JVal)) :
    pairsSize ps ≤ (printPairs ps).length := by
  induction ps with
  | nil => simp [pairsSize, printPairs]
  | cons kv t ih =>
    have hv := printJVal_length_ge kv.2
    cases t with
    | nil =>
      rw [show printPairs [kv] = printPair kv ++ ['\x7d'] from rfl]
      simp only [pairsSize, List.foldr, printPair, List.length_append,
        List.length_cons, List.length_nil, printJStr_length]
      omega
    | cons kv1 t' =>
      rw [show printPairs (kv :: kv1 :: t') =
        printPair kv ++ ',' :: printPairs (kv1 :: t') from rfl]
      simp only [pairsSize, List.foldr, printPair, List.length_append,
        List.length_cons, printJStr_length] at ih ⊢
      omega

theorem lookupKey_optStr_here (k v : String) (ys : List (List Char × JVal)) :
    lookupKey k.data (optStr k v ++ ys) =
      if v = "" then lookupKey k.data ys else some (.str v.data) := by
  by_cases hv : v = "" <;> simp [optStr, hv, lookupKey]

theorem lookupKey_optStr_skip (kq : List Char) (k v : String)
    (h : k.data ≠ kq) (ys : List (List Char × JVal)) :
    lookupKey kq (optStr k v ++ ys) = lookupKey kq ys := by
  by_cases hv : v = "" <;> simp [optStr, hv, lookupKey, h]

theorem lookupKey_optStr_self_last (k v : String) :
    lookupKey k.data (optStr k v) =
      if v = "" then none else some (.str v.data) := by
  by_cases hv : v = "" <;> simp [optStr, hv, lookupKey]

theorem lookupKey_optStr_skip_last (kq : List Char) (k v : String)
    (h : k.data ≠ kq) : lookupKey kq (optStr k v) = none := by
  by_cases hv : v = "" <;> simp [optStr, hv, lookupKey, h]

theorem lookupKey_optArr_here (k : String) (vs : List String)
    (ys : List (List Char × JVal)) :
    lookupKey k.data (optArr k vs ++ ys) =
      if vs = [] then lookupKey k.data ys
      else some (.arr (vs.map String.data)) := by
  by_cases hv : vs = [] <;> simp [optArr, hv, lookupKey]

theorem lookupKey_optArr_skip (kq : List Char) (k : String)
    (vs : List String) (h : k.data ≠ kq) (ys : List (List Char × JVal)) :
    lookupKey kq (optArr k vs ++ ys) = lookupKey kq ys := by
  by_cases hv : vs = [] <;> simp [optArr, hv, lookupKey, h]

end Encodelog

namespace Encodelog

/-- `json.Unmarshal` recovers the `input` field. -/
theorem strField_fieldsOf_input (e : LogFileEntry) :
    strField (fieldsOf e) "input" = e.InputPath := by
  unfold strField fieldsOf
  rw [lookupKey_optStr_here]
  by_cases h : e.InputPath = ""
  · rw [if_pos h,
      lookupKey_optStr_skip _ "output" _ (by decide),
      lookupKey_optStr_skip _ "start_time" _ (by decide),
      lookupKey_optStr_skip _ "duration" _ (by decide),
      lookupKey_optArr_skip _ "args" _ (by decide),
      lookupKey_optStr_skip _ "error" _ (by decide),
      lookupKey_optStr_skip_last _ "skipped" _ (by decide)]
    exact h.symm
  · rw [if_neg h]

/-- `json.Unmarshal` recovers the `output` field. -/
theorem strField_fieldsOf_output (e : LogFileEntry) :
    strField (fieldsOf e) "output" = e.OutputPath := by
  unfold strField fieldsOf
  rw [lookupKey_optStr_skip _ "input" _ (by decide),
    lookupKey_optStr_here]
  by_cases h : e.OutputPath = ""
  · rw [if_pos h,
      lookupKey_optStr_skip _ "start_time" _ (by decide),
      lookupKey_optStr_skip _ "duration" _ (by decide),
      lookupKey_optArr_skip _ "args" _ (by decide),
      lookupKey_optStr_skip _ "error" _ (by decide),
      lookupKey_optStr_skip_last _ "skipped" _ (by decide)]
    exact h.symm
  · rw [if_neg h]

/-- `json.Unmarshal` recovers the `start_time` field. -/
theorem strField_fieldsOf_startTime (e : LogFileEntry) :
    strField (fieldsOf e) "start_time" = e.StartTime := by
  unfold strField fieldsOf
  rw [lookupKey_optStr_skip _ "input" _ (by decide),
    lookupKey_optStr_skip _ "output" _ (by decide),
    lookupKey_optStr_here]
  by_cases h : e.StartTime = ""
  · rw [if_pos h,
      lookupKey_optStr_skip _ "duration" _ (by decide),
      lookupKey_optArr_skip _ "args" _ (by decide),
      lookupKey_optStr_skip _ "error" _ (by decide),
      lookupKey_optStr_skip_last _ "skipped" _ (by decide)]
    exact h.symm
  · rw [if_neg h]

/-- `json.Unmarshal` recovers the `duration` field. -/
theorem strField_fieldsOf_duration (e : LogFileEntry) :
    strField (fieldsOf e) "duration" = e.Duration := by
  unfold strField fieldsOf
  rw [lookupKey_optStr_skip _ "input" _ (by decide),
    lookupKey_optStr_skip _ "output" _ (by decide),
    lookupKey_optStr_skip _ "start_time" _ (by decide),
    lookupKey_optStr_here]
  by_cases h : e.Duration = ""
  · rw [if_pos h,
      lookupKey_optArr_skip _ "args" _ (by decide),
      lookupKey_optStr_skip _ "error" _ (by decide),
      lookupKey_optStr_skip_last _ "skipped" _ (by decide)]
    exact h.symm
  · rw [if_neg h]

/-- `json.Unmarshal` recovers the `args` field. -/
theorem arrField_fieldsOf_args (e : LogFileEntry) :
    arrField (fieldsOf e) "args" = e.Args := by
  unfold arrField fieldsOf
  rw [lookupKey_optStr_skip _ "input" _ (by decide),
    lookupKey_optStr_skip _ "output" _ (by decide),
    lookupKey_optStr_skip _ "start_time" _ (by decide),
    lookupKey_optStr_skip _ "duration" _ (by decide),
    lookupKey_optArr_here]
  by_cases h : e.Args = []
  · rw [if_pos h,
      lookupKey_optStr_skip _ "error" _ (by decide),
      lookupKey_optStr_skip_last _ "skipped" _ (by decide)]
    exact h.symm
  · rw [if_neg h]
    show List.map (fun s => ({ data := s } : String))
      (e.Args.map String.data) = e.Args
    rw [List.map_map]
    exact List.map_id'' (fun a => rfl) e.Args

/-- `json.Unmarshal` recovers the `error` field. -/
theorem strField_fieldsOf_error (e : LogFileEntry) :
    strField (fieldsOf e) "error" = e.Error := by
  unfold strField fieldsOf
  rw [lookupKey_optStr_skip _ "input" _ (by decide),
    lookupKey_optStr_skip _ "output" _ (by decide),
    lookupKey_optStr_skip _ "start_time" _ (by decide),
    lookupKey_optStr_skip _ "duration" _ (by decide),
    lookupKey_optArr_skip _ "args" _ (by decide),
    lookupKey_optStr_here]
  by_cases h : e.Error = ""
  · rw [if_pos h, lookupKey_optStr_skip_last _ "skipped" _ (by decide)]
    exact h.symm
  · rw [if_neg h]

/-- `json.Unmarshal` recovers the `skipped` field. -/
theorem strField_fieldsOf_skipped (e : LogFileEntry) :
    strField (fieldsOf e) "skipped" = e.Skipped := by
  unfold strField fieldsOf
  rw [lookupKey_optStr_skip _ "input" _ (by decide),
    lookupKey_optStr_skip _ "output" _ (by decide),
    lookupKey_optStr_skip _ "start_time" _ (by decide),
    lookupKey_optStr_skip _ "duration" _ (by decide),
    lookupKey_optArr_skip _ "args" _ (by decide),
    lookupKey_optStr_skip _ "error" _ (by decide),
    lookupKey_optStr_self_last]
  by_cases h : e.Skipped = ""
  · rw [if_pos h]
    exact h.symm
  · rw [if_neg h]

/-- Decoding the emitted members rebuilds the original entry. -/
theorem entryOfPairs_fieldsOf (e : LogFileEntry) :
    entryOfPairs (fieldsOf e) = e := by
  unfold entryOfPairs
  rw [strField_fieldsOf_input, strField_fieldsOf_output,
    strField_fieldsOf_startTime, strField_fieldsOf_duration,
    arrField_fieldsOf_args, strField_fieldsOf_error,
    strField_fieldsOf_skipped]

end Encodelog

namespace Encodelog

/-- Round trip of one record: decoding what `AppendLog` encodes for an
entry gives back exactly that entry. -/
theorem decodeEntry_encodeEntry (e : LogFileEntry) :
    decodeEntry (encodeEntry e) = some e := by
  unfold decodeEntry
  have hb : pairsSize (fieldsOf e) ≤ (encodeEntry e).length := by
    have h1 := printPairs_length_ge (fieldsOf e)
    simp only [encodeEntry, printObj, List.length_cons]
    omega
  have hobj := parseObj_print (fieldsOf e) [] (encodeEntry e).length hb
  rw [List.append_nil] at hobj
  rw [show printObj (fieldsOf e) = encodeEntry e from rfl] at hobj
  rw [hobj]
  simp [entryOfPairs_fieldsOf]

theorem hexDigit_ne_newline (n : Nat) : hexDigit n ≠ '\n' := by
  unfold hexDigit
  split <;> decide

/-- Escaping never emits a raw newline character. -/
theorem newline_not_mem_escChar (c : Char) : '\n' ∉ escChar c := by
  by_cases h1 : c = '"'
  · subst h1
    decide
  · by_cases h2 : c = '\\'
    · subst h2
      decide
    · by_cases h3 : c = '\n'
      · subst h3
        decide
      · by_cases h4 : c = '\r'
        · subst h4
          decide
        · by_cases h5 : c = '\t'
          · subst h5
            decide
          · by_cases h6 : c.toNat < 32
            · have heq : escChar c = ['\\', 'u', '0', '0',
                  hexDigit (c.toNat / 16), hexDigit (c.toNat % 16)] := by
                unfold escChar
                rw [if_neg h1, if_neg h2, if_neg h3, if_neg h4, if_neg h5,
                  if_pos h6]
              rw [heq]
              intro hm
              simp only [List.mem_cons, List.not_mem_nil, or_false] at hm
              rcases hm with h | h | h | h | h | h
              · exact absurd h (by decide)
              · exact absurd h (by decide)
              · exact absurd h (by decide)
              · exact absurd h (by decide)
              · exact hexDigit_ne_newline _ h.symm
              · exact hexDigit_ne_newline _ h.symm
            · by_cases h7 : c = '<'
              · subst h7
                decide
              · by_cases h8 : c = '>'
                · subst h8
                  decide
                · by_cases h9 : c = '&'
                  · subst h9
                    decide
                  · by_cases h10 : c.toNat = 0x2028
                    · have heq : escChar c =
                          ['\\', 'u', '2', '0', '2', '8'] := by
                        unfold escChar
                        rw [if_neg h1, if_neg h2, if_neg h3, if_neg h4,
                          if_neg h5, if_neg h6, if_neg h7, if_neg h8,
                          if_neg h9, if_pos h10]
                      rw [heq]
                      decide
                    · by_cases h11 : c.toNat = 0x2029
                      · have heq : escChar c =
                            ['\\', 'u', '2', '0', '2', '9'] := by
                          unfold escChar
                          rw [if_neg h1, if_neg h2, if_neg h3, if_neg h4,
                            if_neg h5, if_neg h6, if_neg h7, if_neg h8,
                            if_neg h9, if_neg h10, if_pos h11]
                        rw [heq]
                        decide
                      · have heq : escChar c = [c] := by
                          unfold escChar
                          rw [if_neg h1, if_neg h2, if_neg h3, if_neg h4,
                            if_neg h5, if_neg h6, if_neg h7, if_neg h8,
                            if_neg h9, if_neg h10, if_neg h11]
                        rw [heq]
                        intro hm
                        exact h3 (List.mem_singleton.mp hm).symm

/-- Escaped string bodies contain no raw newline. -/
theorem newline_not_mem_escape (s : List Char) : '\n' ∉ escape s := by
  induction s with
  | nil => simp [escape]
  | cons c cs ih =>
    rw [escape]
    intro hm
    rcases List.mem_append.mp hm with h | h
    · exact newline_not_mem_escChar c h
    · exact ih h

/-- Printed JSON string literals contain no raw newline. -/
theorem newline_not_mem_printJStr (s : List Char) :
    '\n' ∉ printJStr s := by
  rw [printJStr]
  intro hm
  rcases List.mem_cons.mp hm with h | h
  · exact absurd h (by decide)
  · rcases List.mem_append.mp h with h2 | h2
    · exact newline_not_mem_escape s h2
    · exact absurd (List.mem_singleton.mp h2) (by decide)

/-- Printed array element lists contain no raw newline. -/
theorem newline_not_mem_printElems (ss : List (List Char)) :
    '\n' ∉ printElems ss := by
  induction ss with
  | nil => decide
  | cons s t ih =>
    cases t with
    | nil =>
      rw [show printElems [s] = printJStr s ++ [']'] from rfl]
      intro hm
      rcases List.mem_append.mp hm with h | h
      · exact newline_not_mem_printJStr s h
      · exact absurd (List.mem_singleton.mp h) (by decide)
    | cons s1 t' =>
      rw [show printElems (s :: s1 :: t') =
        printJStr s ++ ',' :: printElems (s1 :: t') from rfl]
      intro hm
      rcases List.mem_append.mp hm with h | h
      · exact newline_not_mem_printJStr s h
      · rcases List.mem_cons.mp h with h2 | h2
        · exact absurd h2 (by decide)
        · exact ih h2

/-- Printed JSON values contain no raw newline. -/
theorem newline_not_mem_printJVal (v : JVal) : '\n' ∉ printJVal v := by
  cases v with
  | str s => exact newline_not_mem_printJStr s
  | arr ss =>
    rw [printJVal]
    intro hm
    rcases List.mem_cons.mp hm with h | h
    · exact absurd h (by decide)
    · exact newline_not_mem_printElems ss h

/-- Printed member lists contain no raw newline. -/
theorem newline_not_mem_printPairs (ps : List (List Char × JVal)) :
    '\n' ∉ printPairs ps := by
  induction ps with
  | nil => decide
  | cons kv t ih =>
    have hpair : '\n' ∉ printPair kv := by
      rw [printPair]
      intro hm
      rcases List.mem_append.mp hm with h | h
      · exact newline_not_mem_printJStr kv.1 h
      · rcases List.mem_cons.mp h with h2 | h2
        · exact absurd h2 (by decide)
        · exact newline_not_mem_printJVal kv.2 h2
    cases t with
    | nil =>
      rw [show printPairs [kv] = printPair kv ++ ['\x7d'] from rfl]
      intro hm
      rcases List.mem_append.mp hm with h | h
      · exact hpair h
      · exact absurd (List.mem_singleton.mp h) (by decide)
    | cons kv1 t' =>
      rw [show printPairs (kv :: kv1 :: t') =
        printPair kv ++ ',' :: printPairs (kv1 :: t') from rfl]
      intro hm
      rcases List.mem_append.mp hm with h | h
      · exact hpair h
      · rcases List.mem_cons.mp h with h2 | h2
        · exact absurd h2 (by decide)
        · exact ih h2

/-- Encoded journal records contain no raw newline: each record really is
one line. -/
theorem newline_not_mem_encodeEntry (e : LogFileEntry) :
    '\n' ∉ encodeEntry e := by
  rw [show encodeEntry e = '\x7b' :: printPairs (fieldsOf e) from rfl]
  intro hm
  rcases List.mem_cons.mp hm with h | h
  · exact absurd h (by decide)
  · exact newline_not_mem_printPairs _ h

end Encodelog

namespace Encodelog

/-- `bufio.Scanner` line splitting peels off one newline-terminated
newline-free line. -/
theorem splitLines_append_newline (l rest : List Char) (h : '\n' ∉ l) :
    splitLines (l ++ '\n' :: rest) = l :: splitLines rest := by
  induction l with
  | nil =>
    rw [List.nil_append, splitLines.eq_def]
    simp
  | cons c l' ih =>
    have hc : c ≠ '\n' := fun hc => h (hc ▸ List.mem_cons_self c l')
    have h' : '\n' ∉ l' := fun hm => h (List.mem_cons_of_mem _ hm)
    rw [List.cons_append, splitLines.eq_def]
    simp only [hc, if_neg, if_false]
    rw [ih h']

/-- A fold of `AppendLog` calls factors through the existing file
contents. -/
theorem appendAll_append (es : List LogFileEntry) :
    ∀ file, appendAll file es = file ++ appendAll [] es := by
  induction es with
  | nil =>
    intro file
    simp [appendAll]
  | cons e es ih =>
    intro file
    show appendAll (appendLog file e) es =
      file ++ appendAll (appendLog [] e) es
    rw [ih (appendLog file e), ih (appendLog [] e)]
    simp [appendLog, List.append_assoc]

/-- The file produced by appending a list of entries to an empty journal
splits into exactly one line per entry, each holding that entry's encoded
record. -/
theorem splitLines_appendAll (es : List LogFileEntry) :
    splitLines (appendAll [] es) = es.map encodeEntry := by
  induction es with
  | nil => rfl
  | cons e es ih =>
    rw [show appendAll [] (e :: es) = appendAll (appendLog [] e) es
      from rfl]
    rw [appendAll_append es (appendLog [] e)]
    rw [show appendLog [] e = encodeEntry e ++ ['\n'] from by
      simp [appendLog]]
    rw [List.append_assoc, List.singleton_append]
    rw [splitLines_append_newline _ _ (newline_not_mem_encodeEntry e), ih]
    rfl

/-- Decoding each encoded record in a list recovers the entry list. -/
theorem filterMap_decode_map (es : List LogFileEntry) :
    (es.map encodeEntry).filterMap decodeEntry = es := by
  induction es with
  | nil => rfl
  | cons e es ih =>
    simp [List.filterMap_cons, decodeEntry_encodeEntry, ih]

/-- C9: appending N entries to an initially empty journal produces exactly
one well-formed record per `Append` call — the file splits into exactly the
N encoded lines, in order — and `ReadAll` parses every one of them,
returning exactly those N entries with their field values intact and in
append order. -/
theorem journal_append_readAll_roundtrip (es : List LogFileEntry) :
    splitLines (appendAll [] es) = es.map encodeEntry ∧
      (splitLines (appendAll [] es)).length = es.length ∧
      readLog (appendAll [] es) = es := by
  refine ⟨splitLines_appendAll es, ?_, ?_⟩
  · rw [splitLines_appendAll es, List.length_map]
  · unfold readLog
    rw [splitLines_appendAll es, filterMap_decode_map]

end Encodelog
